import Mathlib

/-!
Verification of the Sentinel-2 download / NDVI pipeline
(`Prueaba.py`, `ndvi_processor.py`, `recorte_tlaxcala.py`,
`recortar_por_estado.py`, `see_ndvi.py`).

The Python code is shallowly embedded: pure string manipulation is
modelled over `List Char` by structural functions (the built-in
`String` operations of Lean do not reduce in the kernel), stateful
filesystem and network effects are modelled by explicit state passing
over lists of file names, and floating point arrays are idealised as
functions into `ℝ` (for the NDVI / Gaussian-smoothing pipeline) or
`ℚ` (for coordinates and cloud-cover values).
-/

/-! ## String utilities (structural embeddings of Python string idioms) -/

/-- Lexicographic strict ordering on character lists by code point; this
is how Python compares `str` values (`a < b`). -/
def charsLtB : List Char → List Char → Bool
  | [], [] => false
  | [], _ :: _ => true
  | _ :: _, [] => false
  | a :: as, b :: bs => a.toNat < b.toNat || (a.toNat == b.toNat && charsLtB as bs)

/-- Python `needle_pre.isPrefixOf hay` over char lists:
`hay.startswith(needle)`. -/
def startsWithL : List Char → List Char → Bool
  | [], _ => true
  | _ :: _, [] => false
  | a :: as, b :: bs => a == b && startsWithL as bs

/-- Python `hay.endswith(needle)` over char lists. -/
def endsWithL (needle hay : List Char) : Bool :=
  startsWithL needle.reverse hay.reverse

/-- Python `needle in hay` (substring containment) over char lists. -/
def occursInL (needle : List Char) : List Char → Bool
  | [] => startsWithL needle []
  | h :: t => startsWithL needle (h :: t) || occursInL needle t

/-- Python `s.split(sep)` for a one-character separator, over char lists. -/
def splitOnCharL (sep : Char) : List Char → List (List Char)
  | [] => [[]]
  | c :: cs =>
    let rest := splitOnCharL sep cs
    if c == sep then [] :: rest
    else
      match rest with
      | [] => [[c]]
      | r :: rs => (c :: r) :: rs

/-- `hay.startswith(needle)` on `String`. -/
def strStartsWith (hay needle : String) : Bool := startsWithL needle.data hay.data

/-- `hay.endswith(needle)` on `String`. -/
def strEndsWith (hay needle : String) : Bool := endsWithL needle.data hay.data

/-- `needle in hay` on `String`. -/
def strContains (hay needle : String) : Bool := occursInL needle.data hay.data

/-- `s.split("_")` on `String`, as in the tile/date parsing code. -/
def splitUnderscore (s : String) : List String :=
  (splitOnCharL '_' s.data).map List.asString

/-- Python `s.upper()` (ASCII case mapping suffices for the inputs used). -/
def strUpper (s : String) : String := (s.data.map Char.toUpper).asString

/-- Python string `a < b`. -/
def strLtB (a b : String) : Bool := charsLtB a.data b.data

/-! ## Filesystem model

The download directory is modelled as a finite map from file names to
file sizes in bytes, represented as an association list.  `setFile`
models (over)writing a file, `delFile` models `Path.unlink`. -/

abbrev FileSys := List (String × Nat)

def delFile (fs : FileSys) (name : String) : FileSys :=
  fs.filter (fun p => p.1 != name)

def setFile (fs : FileSys) (name : String) (size : Nat) : FileSys :=
  (name, size) :: delFile fs name

def lookupFile (fs : FileSys) (name : String) : Option Nat :=
  (fs.find? (fun p => p.1 == name)).map (·.2)

/-! ## `CopernicusDownloader.download_product` (Prueaba.py 193-246)

The network is modelled by an oracle describing how the streaming GET
for the product body turns out: either the whole body of `total` bytes
is streamed and written, or the request fails before the output file is
opened (`requests.get` / `raise_for_status` raising), or it fails midway
with `written` bytes already on disk.  On any exception the code runs
`if filepath.exists(): filepath.unlink()` and re-raises. -/

inductive NetOutcome : Type
  | ok (total : Nat)
  | failBeforeOpen
  | failDuring (written : Nat)
deriving DecidableEq, Repr

/-- Result of one call to `download_product`: either the returned path,
or a propagated error, together with the download directory contents
after the call. -/
def download_product (fs : FileSys) (downloadDir productTitle : String)
    (net : NetOutcome) : Except Unit String × FileSys :=
  let filepath := downloadDir ++ "/" ++ productTitle ++ ".zip"
  match net with
  | .ok total => (.ok filepath, setFile fs filepath total)
  | .failBeforeOpen =>
      -- no write happened; the except-handler still unlinks a stale file
      (.error (), if (lookupFile fs filepath).isSome then delFile fs filepath else fs)
  | .failDuring written =>
      let fs' := setFile fs filepath written
      (.error (), if (lookupFile fs' filepath).isSome then delFile fs' filepath else fs')

/-! ## Token handling before a download (Prueaba.py 193-217, 78-101)

`download_product` first ensures a usable access token: with no token
held it authenticates; with a token held it issues a HEAD probe against
the product endpoint and re-authenticates exactly when the probe returns
status 401 or the probe itself raises.  The download request then
carries `Bearer <token>` for whatever token resulted. -/

inductive ProbeOutcome : Type
  | status (code : Nat)
  | raised
deriving DecidableEq, Repr

inductive AuthAct : Type
  | probeHead
  | authenticate
deriving DecidableEq, Repr

/-- The token-ensuring prelude of `download_product`: given the held
token (if any), the outcome of the HEAD probe (consulted only when a
token is held) and the token a fresh authentication would yield,
returns the list of performed actions and the token used afterwards. -/
def ensure_token (held : Option String) (probe : ProbeOutcome)
    (freshTok : String) : List AuthAct × String :=
  match held with
  | none => ([.authenticate], freshTok)
  | some t =>
    match probe with
    | .raised => ([.probeHead, .authenticate], freshTok)
    | .status c =>
      if c = 401 then ([.probeHead, .authenticate], freshTok)
      else ([.probeHead], t)

/-- The authorization header of the subsequent download request
(Prueaba.py 215-217). -/
def download_request_header (held : Option String) (probe : ProbeOutcome)
    (freshTok : String) : String :=
  "Bearer " ++ (ensure_token held probe freshTok).2

/-! ## NDVI pixel formula (ndvi_processor.py 29-33)

`np.where((nir + red) == 0, 0, (nir - red) / (nir + red))` applied
pixelwise.  `ndviPixel` works over `ℚ` (executable); `ndviPixelR` is
the same expression over `ℝ`, used by the full `calcular_ndvi`
pipeline which also involves the (irrational) Gaussian kernel. -/

def ndviPixel (nir red : ℚ) : ℚ :=
  if nir + red = 0 then 0 else (nir - red) / (nir + red)

noncomputable def ndviPixelR (nir red : ℝ) : ℝ :=
  if nir + red = 0 then 0 else (nir - red) / (nir + red)

/-! ## Band extraction (Prueaba.py 248-417)

A downloaded archive is modelled by the base name of the zip file
without its extension (`Path(zip_file).stem`) and the list of entry
paths inside it (`zip_ref.namelist()`).  Extraction of an entry is
modelled as always succeeding and placing the file at
`<download_dir>/<short_name>/<entry>` (the `resolve()` of the real code
only absolutises this path).  Python dicts are modelled as association
lists with in-place update (`dictInsert`), which preserves insertion
order exactly as the CPython dict does. -/

structure ZipArchive : Type where
  stem : String
  entries : List String
deriving DecidableEq, Repr

def target_bands : List String := ["TCI", "B08", "B04", "B03"]

/-- `dict[k] = v` on an insertion-ordered association list. -/
def dictInsert {β : Type} (d : List (String × β)) (k : String) (v : β) :
    List (String × β) :=
  if d.any (fun p => p.1 == k) then
    d.map (fun p => if p.1 == k then (k, v) else p)
  else d ++ [(k, v)]

/-- `_extract_tile_id` (Prueaba.py 400-406): first `_`-separated part
that starts with `'T'` and has length exactly 6. -/
def extract_tile_id (productName : String) : Option String :=
  (splitUnderscore productName).find?
    (fun part => strStartsWith part "T" && part.length == 6)

/-- The `tile_part` of the short extraction-directory name
(Prueaba.py 263-268): the loop keeps overwriting, so this is the *last*
matching part. -/
def lastTilePart (productName : String) : Option String :=
  ((splitUnderscore productName).filter
    (fun part => strStartsWith part "T" && part.length == 6)).getLast?

/-- The `date_part` (Prueaba.py 263-268): last part of length ≥ 8
starting with `'2'`, truncated to 8 characters. -/
def lastDatePart (productName : String) : Option String :=
  (((splitUnderscore productName).filter
    (fun part => 8 ≤ part.length && strStartsWith part "2")).getLast?).map
    (fun part => (part.data.take 8).asString)

/-- `short_name` for the extraction directory (Prueaba.py 270-274). -/
def shortName (stem : String) : String :=
  match lastTilePart stem, lastDatePart stem with
  | some t, some d => t ++ "_" ++ d
  | _, _ => (stem.data.take 50).asString

/-- Per-tile record stored in `organized_bands` (Prueaba.py 340-346).
`_extract_date` is modelled as the raw 8-character date token; the
`strptime` validity check of the real code is not modelled (no claim
depends on the parsed value). -/
structure TileInfo : Type where
  dateRaw : Option String
  bands : List (String × String)
  product_name : String
  extract_dir : String
  extracted_files : List String
deriving DecidableEq, Repr

/-- The per-entry band matching of the extraction loop
(Prueaba.py 307-332): a `.jp2` entry is assigned to the first target
band whose `_<band>_` marker occurs in the entry path. -/
def entryBand (entry : String) : Option String :=
  if strEndsWith entry ".jp2" then
    target_bands.find? (fun band => strContains entry ("_" ++ band ++ "_"))
  else none

/-- One step of the extraction loop: extract a matching `.jp2` entry
and record it in `band_files` and `extracted_files`. -/
def collectBandsStep (extractDir : String)
    (acc : List (String × String) × List String) (entry : String) :
    List (String × String) × List String :=
  match entryBand entry with
  | some band =>
      (dictInsert acc.1 band (extractDir ++ "/" ++ entry),
       acc.2 ++ [extractDir ++ "/" ++ entry])
  | none => acc

/-- The `band_files` dict and `extracted_files` list built by one pass
over the archive's entry list. -/
def collectBands (extractDir : String) (entries : List String) :
    List (String × String) × List String :=
  entries.foldl (collectBandsStep extractDir) ([], [])

/-- Processing of a single archive inside `extract_and_organize_bands`:
returns the `(tile_id, info)` contribution, or `none` when the archive
is skipped (no matching bands, or no tile id in its name). -/
def processZip (downloadDir : String) (z : ZipArchive) :
    Option (String × TileInfo) :=
  let extractDir := downloadDir ++ "/" ++ shortName z.stem
  let collected := collectBands extractDir z.entries
  if collected.1 ≠ [] then
    match extract_tile_id z.stem with
    | some tileId =>
        some (tileId,
          { dateRaw := lastDatePart z.stem
            bands := collected.1
            product_name := z.stem
            extract_dir := extractDir
            extracted_files := collected.2 })
    | none => none
  else none

/-- Contribution of one archive to the `organized_bands` dict. -/
def organizeStep (downloadDir : String) (acc : List (String × TileInfo))
    (z : ZipArchive) : List (String × TileInfo) :=
  match processZip downloadDir z with
  | some ti => dictInsert acc ti.1 ti.2
  | none => acc

/-- `extract_and_organize_bands` (Prueaba.py 248-385): fold the
per-archive contributions into the `organized_bands` dict. -/
def extract_and_organize_bands (downloadDir : String)
    (zipFiles : List ZipArchive) : List (String × TileInfo) :=
  zipFiles.foldl (organizeStep downloadDir) []

/-! ## Product ranking (Prueaba.py 165-188)

`search_sentinel2_products` turns each catalog entry into a
`product_info` record (`date` is the `'YYYY-MM-DD'` string prefix of
`ContentDate/Start`, `cloud_cover` a float) and then runs
`products_list.sort(key=lambda x: (x['date'], x['cloud_cover']),
reverse=True)`: a stable sort, descending in the lexicographic key
`(date, cloud_cover)`.  Python compares the date strings
lexicographically, which `charsLtB` mirrors. -/

structure ProductInfo : Type where
  id : String
  title : String
  date : String
  cloud_cover : ℚ
deriving DecidableEq, Repr

/-- `(a.date, a.cloud_cover) ≤ (b.date, b.cloud_cover)` in the
lexicographic order used as the sort key. -/
def prodKeyLeB (a b : ProductInfo) : Bool :=
  charsLtB a.date.data b.date.data ||
    (a.date == b.date && decide (a.cloud_cover ≤ b.cloud_cover))

/-- The ordering realised by `reverse=True`: `a` may come before `b`
iff its key is ≥ the key of `b`. -/
def prodRevOrder (a b : ProductInfo) : Prop := prodKeyLeB b a = true

instance : DecidableRel prodRevOrder := fun _ _ => Bool.decEq _ _

/-- The `products_list.sort(..., reverse=True)` call, as a sort with
respect to `prodRevOrder`. -/
def sortProducts (ps : List ProductInfo) : List ProductInfo :=
  ps.insertionSort prodRevOrder

/-- The ranking claimed by the specification reading of the sort:
most recent acquisition date first and, within one date, *lower* cloud
cover first.  This definition follows the claim's words, to be
compared with the behaviour of `sortProducts`. -/
def specRankOrder (a b : ProductInfo) : Prop :=
  charsLtB b.date.data a.date.data = true ∨
    (a.date = b.date ∧ a.cloud_cover ≤ b.cloud_cover)

instance : DecidableRel specRankOrder := fun _ _ => by
  unfold specRankOrder; infer_instance

/-! ## `procesar_ndvi_por_tiles` (ndvi_processor.py 57-96)

Modelled by the list of raster files the call writes, in order: one
`<tile_id>_NDVI.tif` per tile whose band dict contains both `"B08"`
and `"B04"`, followed by `NDVI_MOSAICO.tif` iff more than one per-tile
NDVI file was produced. -/

def hasBand (info : TileInfo) (band : String) : Bool :=
  info.bands.any (fun p => p.1 == band)

def procesar_ndvi_por_tiles (organizedBands : List (String × TileInfo))
    (outputFolder : String) : List String :=
  let ndviFiles :=
    organizedBands.foldl
      (fun acc p =>
        if hasBand p.2 "B08" && hasBand p.2 "B04" then
          acc ++ [outputFolder ++ "/" ++ p.1 ++ "_NDVI.tif"]
        else acc)
      []
  if 1 < ndviFiles.length then
    ndviFiles ++ [outputFolder ++ "/NDVI_MOSAICO.tif"]
  else ndviFiles

/-! ## `recortar_ndvi_con_tlaxcala` (recorte_tlaxcala.py 39-59,
recortar_por_estado.py 43-71 — the two copies are line-for-line the
same logic)

The extracted shapefile ZIP is modelled by the list of names it
extracts into `shapefile_tmp`, and the shapefile contents by the list
of `ENTIDAD` attribute values of its features.  The result is the list
of raster files written together with the error raised, if any. -/

inductive RecorteError : Type
  | fileNotFound
  | valueError
deriving DecidableEq, Repr

def filtrar_estado (entidades : List String) (nombreEstado : String) :
    List String :=
  entidades.filter (fun e => strUpper e == strUpper nombreEstado)

def recortar_ndvi_con_tlaxcala (zipNames : List String)
    (entidades : List String) (salidaPath : String) :
    List String × Option RecorteError :=
  let shpFiles := zipNames.filter (fun f => strEndsWith f ".shp")
  if shpFiles.isEmpty then ([], some .fileNotFound)
  else
    let gdfTlaxcala := filtrar_estado entidades "TLAXCALA"
    if gdfTlaxcala.isEmpty then ([], some .valueError)
    else ([salidaPath], none)

/-! ## Catalog search filter (Prueaba.py 121-150, 67-73)

Coordinates are idealised as rationals.  A polygon is its exterior
ring, a list of `(lon, lat)` vertices with the first vertex repeated
at the end.  `search_sentinel2_products` does *not* put the area of
interest itself into the query: it takes `aoi.bounds` and builds an
axis-aligned bounding-box ring (line 130-131).  The filter string of
lines 137-144 is modelled structurally by `CatalogFilter`, and its
meaning on a catalog product — whose footprint is modelled as a single
point — by `matchesFilter`.  Date-time strings in ISO form compare
lexicographically, as OData and `charsLtB` both do. -/

abbrev Pt : Type := ℚ × ℚ

/-- `self.tlaxcala_bounds` (Prueaba.py 67-73). -/
def tlaxcala_bounds : List Pt :=
  [(-988/10, 191/10), (-976/10, 191/10), (-976/10, 199/10),
   (-988/10, 199/10), (-988/10, 191/10)]

/-- Shapely `.bounds`: `(minx, miny, maxx, maxy)`. -/
def polyBounds : List Pt → ℚ × ℚ × ℚ × ℚ
  | [] => (0, 0, 0, 0)
  | p :: ps =>
    ps.foldl
      (fun acc q =>
        (min acc.1 q.1, min acc.2.1 q.2, max acc.2.2.1 q.1, max acc.2.2.2 q.2))
      (p.1, p.2, p.1, p.2)

/-- The `bbox_wkt` ring of Prueaba.py line 131:
`(minx miny, maxx miny, maxx maxy, minx maxy, minx miny)`. -/
def bboxRing (poly : List Pt) : List Pt :=
  let b := polyBounds poly
  [(b.1, b.2.1), (b.2.2.1, b.2.1), (b.2.2.1, b.2.2.2),
   (b.1, b.2.2.2), (b.1, b.2.1)]

/-- Structural rendering of the `$filter` string built at
Prueaba.py 137-144. -/
structure CatalogFilter : Type where
  collectionName : String
  startGe : String
  startLe : String
  productType : String
  maxCloudCover : ℚ
  areaRing : List Pt
deriving DecidableEq, Repr

/-- The filter construction inside `search_sentinel2_products`:
`start_date`/`end_date` are already rendered as `YYYY-MM-DD` strings
(the `strftime('%Y-%m-%d')` output). -/
def search_filter (startDate endDate : String) (aoi : Option (List Pt))
    (maxCloudCover : ℚ) : CatalogFilter :=
  let a := aoi.getD tlaxcala_bounds
  { collectionName := "SENTINEL-2"
    startGe := startDate ++ "T00:00:00.000Z"
    startLe := endDate ++ "T23:59:59.999Z"
    productType := "S2MSI2A"
    maxCloudCover := maxCloudCover
    areaRing := bboxRing a }

/-- A catalog product as the filter sees it; the spatial footprint is
modelled as a single point. -/
structure CatalogProduct : Type where
  collection : String
  contentStart : String
  productType : String
  cloudCover : ℚ
  footprint : Pt
deriving DecidableEq, Repr

/-- Python string `a <= b`. -/
def strLeB (a b : String) : Bool := charsLtB a.data b.data || a == b

/-- One step of the even-odd ray-casting point-in-polygon test: does
the edge `a→b` cross the horizontal ray from `q` towards `+x`?  The
intersection-abscissa comparison is cross-multiplied to stay
division-free. -/
def edgeCrossesRay (q a b : Pt) : Bool :=
  if a.2 ≤ q.2 ∧ q.2 < b.2 then
    decide ((q.1 - a.1) * (b.2 - a.2) < (q.2 - a.2) * (b.1 - a.1))
  else if b.2 ≤ q.2 ∧ q.2 < a.2 then
    decide ((q.2 - a.2) * (b.1 - a.1) < (q.1 - a.1) * (b.2 - a.2))
  else false

def ringEdges (ring : List Pt) : List (Pt × Pt) := ring.zip ring.tail

/-- Even-odd point-in-polygon test over the exterior ring (the meaning
of a point spatially intersecting a polygonal area). -/
def pointInPoly (ring : List Pt) (q : Pt) : Bool :=
  ((ringEdges ring).filter (fun e => edgeCrossesRay q e.1 e.2)).length % 2 == 1

/-- The meaning of the constructed `$filter` on a catalog product:
conjunction of the collection, time-window, product-type, cloud-cover
and spatial-intersection clauses. -/
def matchesFilter (f : CatalogFilter) (p : CatalogProduct) : Bool :=
  p.collection == f.collectionName &&
  strLeB f.startGe p.contentStart &&
  strLeB p.contentStart f.startLe &&
  p.productType == f.productType &&
  decide (p.cloudCover ≤ f.maxCloudCover) &&
  pointInPoly f.areaRing p.footprint

/-! ## Per-month period loop of the GUI (Prueaba.py 709-761)

Dates are calendar triples.  `calendar.monthrange(y, m)[1]` is
`daysInMonth`, `current_end + relativedelta(days=1)` is `nextDay`.
The `while current_start < end_date` loop is embedded with an explicit
fuel argument; `periodsFuel` is enough fuel for valid dates (theorem
`periodsAux_fuel_stable` below), which makes the embedding total and
executable while keeping the loop's exact structure. -/

def isLeapYear (y : Nat) : Bool :=
  y % 4 == 0 && (y % 100 != 0 || y % 400 == 0)

def daysInMonth (y m : Nat) : Nat :=
  if m == 2 then (if isLeapYear y then 29 else 28)
  else if m == 4 || m == 6 || m == 9 || m == 11 then 30
  else 31

structure Date : Type where
  year : Nat
  month : Nat
  day : Nat
deriving DecidableEq, Repr

/-- `datetime` comparison: lexicographic on `(year, month, day)`. -/
def Date.blt (a b : Date) : Bool :=
  a.year < b.year ||
    (a.year == b.year &&
      (a.month < b.month || (a.month == b.month && a.day < b.day)))

def Date.ble (a b : Date) : Bool := a.blt b || a == b

def Date.valid (d : Date) : Prop :=
  1 ≤ d.month ∧ d.month ≤ 12 ∧ 1 ≤ d.day ∧ d.day ≤ daysInMonth d.year d.month

instance (d : Date) : Decidable d.valid :=
  inferInstanceAs (Decidable (1 ≤ d.month ∧ d.month ≤ 12 ∧ 1 ≤ d.day ∧
    d.day ≤ daysInMonth d.year d.month))

/-- `datetime(current_start.year, current_start.month, last_day)`. -/
def endOfMonth (d : Date) : Date :=
  ⟨d.year, d.month, daysInMonth d.year d.month⟩

/-- `current_end + relativedelta(days=1)`. -/
def nextDay (d : Date) : Date :=
  if d.day < daysInMonth d.year d.month then ⟨d.year, d.month, d.day + 1⟩
  else if d.month < 12 then ⟨d.year, d.month + 1, 1⟩
  else ⟨d.year + 1, 1, 1⟩

/-- Strictly increasing measure for the loop: on valid dates this is
`600·year + 40·month + day`; the clamps only matter for showing the
fuel bound is conservative on arbitrary triples. -/
def dateOrd (d : Date) : Nat :=
  600 * d.year + 40 * min d.month 13 + min d.day 39

/-- The download loop body, with explicit fuel. -/
def periodsAux : Nat → Date → Date → List (Date × Date)
  | 0, _, _ => []
  | fuel + 1, s, e =>
    if s.blt e then
      let monthEnd := endOfMonth s
      let pend := if e.blt monthEnd then e else monthEnd
      (s, pend) :: periodsAux fuel (nextDay pend) e
    else []

def periodsFuel (s e : Date) : Nat := dateOrd e + 1 - dateOrd s

/-- The sequence of `(current_start, current_end)` periods the GUI
download loop processes for a given date range. -/
def download_periods (s e : Date) : List (Date × Date) :=
  periodsAux (periodsFuel s e) s e

/-! ## `calcular_ndvi` (ndvi_processor.py 9-50)

Arrays are `Nat → Nat → ℝ` together with their height and width.  The
cubic resampling of the RED band is a rasterio call at the embedding
boundary: the function is modelled as consuming the already-resampled
RED array, exactly the granularity at which the claims speak.  The
`gaussian_filter(ndvi, sigma=1)` call is scipy's separable correlation
with the normalised truncated Gaussian kernel (`sigma = 1`,
`truncate = 4.0`, so radius 4) in `'reflect'` boundary mode, applied
along axis 0 and then axis 1. -/

def kernelOffsets : List Int := [-4, -3, -2, -1, 0, 1, 2, 3, 4]

noncomputable def gaussPhi (k : Int) : ℝ := Real.exp (-((k : ℝ)) ^ 2 / 2)

noncomputable def gaussNorm : ℝ := (kernelOffsets.map gaussPhi).sum

/-- scipy `'reflect'` boundary mode `(d c b a | a b c d | d c b a)`:
map an extended index into `[0, n)`. -/
def reflectIndex (n : Nat) (i : Int) : Nat :=
  if n ≤ 1 then 0
  else
    let m := (i % (2 * (n : Int))).toNat
    if m < n then m else 2 * n - 1 - m

/-- One-dimensional correlation with the normalised Gaussian kernel
along an axis of length `n`. -/
noncomputable def gaussCorr1 (n : Nat) (xs : Nat → ℝ) (j : Nat) : ℝ :=
  ((kernelOffsets.map
      (fun k => gaussPhi k * xs (reflectIndex n ((j : Int) + k)))).sum) /
    gaussNorm

/-- `scipy.ndimage.gaussian_filter(img, sigma=1)` on an `h × w` array:
axis-0 pass, then axis-1 pass. -/
noncomputable def gaussian_filter (h w : Nat) (img : Nat → Nat → ℝ) :
    Nat → Nat → ℝ :=
  fun i j => gaussCorr1 w (fun c => gaussCorr1 h (fun r => img r c) i) j

/-- `calcular_ndvi`: pixelwise `np.where` NDVI followed by the Gaussian
smoothing; the returned array. -/
noncomputable def calcular_ndvi (h w : Nat)
    (nirData redResampled : Nat → Nat → ℝ) : Nat → Nat → ℝ :=
  gaussian_filter h w (fun i j => ndviPixelR (nirData i j) (redResampled i j))

/-- Concrete 1×2 NIR band for exercising the pipeline: `[[2, 0]]`. -/
noncomputable def nirTest : Nat → Nat → ℝ := fun _ j => if j = 0 then 2 else 0

/-- Concrete 1×2 resampled RED band: `[[0, 0]]`. -/
noncomputable def redTest : Nat → Nat → ℝ := fun _ _ => 0

/-! # Theorems -/

/-! ## Helper lemmas -/

theorem lookupFile_delFile (fs : FileSys) (name : String) :
    lookupFile (delFile fs name) name = none := by
  unfold delFile lookupFile
  have hnone : (fs.filter (fun p => p.1 != name)).find?
      (fun p => p.1 == name) = none := by
    rw [List.find?_eq_none]
    intro x hx
    have hr := (List.mem_filter.mp hx).2
    simpa [bne] using hr
  rw [hnone]
  rfl

theorem lookupFile_setFile (fs : FileSys) (name : String) (size : Nat) :
    lookupFile (setFile fs name size) name = some size := by
  simp [setFile, lookupFile, List.find?]

/-! ## Claim C8 -/

/-- Claim C8: `calcular_ndvi` never divides by zero — at every pixel
where `nir + red = 0`, the `np.where` NDVI expression yields `0`
instead of performing the division, so the pixel formula is total on
all band values, all-zero bands included. -/
theorem ndviPixel_zero_sum (nir red : ℚ) (h : nir + red = 0) :
    ndviPixel nir red = 0 := by
  unfold ndviPixel
  simp [h]

theorem ndviPixel_zero_sum_witness :
    (0 : ℚ) + 0 = 0 ∧ ndviPixel 0 0 = 0 :=
  ⟨by simp, ndviPixel_zero_sum 0 0 (by simp)⟩

/-! ## Claim C2 -/

/-- Claim C2: when `download_product` fails after creating the
destination file `<title>.zip`, the partial file is unlinked before the
exception propagates, so the download directory holds no partial file
on error; on success the call returns the path of the archive, fully
written (its recorded size is the complete body size). -/
theorem download_product_cleanup (fs : FileSys) (dir title : String)
    (total written : Nat) :
    ((download_product fs dir title (.ok total)).1 =
        .ok (dir ++ "/" ++ title ++ ".zip") ∧
      lookupFile (download_product fs dir title (.ok total)).2
        (dir ++ "/" ++ title ++ ".zip") = some total) ∧
    ((download_product fs dir title (.failDuring written)).1 = .error () ∧
      lookupFile (download_product fs dir title (.failDuring written)).2
        (dir ++ "/" ++ title ++ ".zip") = none) := by
  refine ⟨⟨rfl, ?_⟩, ⟨rfl, ?_⟩⟩
  · simpa [download_product] using
      lookupFile_setFile fs (dir ++ "/" ++ title ++ ".zip") total
  · have hset := lookupFile_setFile fs (dir ++ "/" ++ title ++ ".zip") written
    have hdel := lookupFile_delFile
      (setFile fs (dir ++ "/" ++ title ++ ".zip") written)
      (dir ++ "/" ++ title ++ ".zip")
    simp [download_product, hset, hdel]

/-! ## Claim C3 -/

/-- Claim C3: before a download, `download_product` ensures a usable
token — with no token held it authenticates; with a token held it
issues the HEAD probe and re-authenticates exactly when the probe
reports 401 or the probe raises — and the download request then
carries `Bearer` plus the resulting token. -/
theorem download_token_refresh (held : Option String)
    (probe : ProbeOutcome) (freshTok : String) :
    (held = none →
      ensure_token held probe freshTok = ([.authenticate], freshTok)) ∧
    (∀ t, held = some t →
      (ensure_token held probe freshTok).1.head? = some .probeHead ∧
      (AuthAct.authenticate ∈ (ensure_token held probe freshTok).1 ↔
        probe = .status 401 ∨ probe = .raised) ∧
      (ensure_token held probe freshTok).2 =
        (if probe = .status 401 ∨ probe = .raised then freshTok else t)) ∧
    download_request_header held probe freshTok =
      "Bearer " ++ (ensure_token held probe freshTok).2 := by
  refine ⟨?_, ?_, rfl⟩
  · rintro rfl; rfl
  · rintro t rfl
    cases probe with
    | raised => simp [ensure_token]
    | status c =>
      by_cases hc : c = 401
      · subst hc; simp [ensure_token]
      · simp [ensure_token, hc]

theorem download_token_refresh_witness :
    ensure_token none (.status 200) "tokA" = ([.authenticate], "tokA") ∧
    (ensure_token (some "tokB") (.status 401) "tokC").2 = "tokC" ∧
    (ensure_token (some "tokB") (.status 200) "tokC").2 = "tokB" := by
  refine ⟨(download_token_refresh none (.status 200) "tokA").1 rfl, ?_, ?_⟩
  · have h :=
      (((download_token_refresh (some "tokB") (.status 401) "tokC").2.1
        "tokB" rfl).2.2)
    simpa using h
  · have h :=
      (((download_token_refresh (some "tokB") (.status 200) "tokC").2.1
        "tokB" rfl).2.2)
    simpa using h

/-! ## Claim C9 -/

/-- Claim C9: `recortar_ndvi_con_tlaxcala` raises `FileNotFoundError`
when the extracted shapefile ZIP holds no `.shp` file, raises
`ValueError` when no feature's `ENTIDAD` equals `'TLAXCALA'`
case-insensitively, and in both error cases writes no output raster. -/
theorem recortar_tlaxcala_errors (zipNames entidades : List String)
    (salida : String) :
    ((∀ f ∈ zipNames, strEndsWith f ".shp" = false) →
      recortar_ndvi_con_tlaxcala zipNames entidades salida =
        ([], some .fileNotFound)) ∧
    ((∃ f ∈ zipNames, strEndsWith f ".shp" = true) →
      (∀ ent ∈ entidades, strUpper ent ≠ "TLAXCALA") →
      recortar_ndvi_con_tlaxcala zipNames entidades salida =
        ([], some .valueError)) := by
  constructor
  · intro hshp
    unfold recortar_ndvi_con_tlaxcala
    have h1 : zipNames.filter (fun f => strEndsWith f ".shp") = [] := by
      rw [List.filter_eq_nil_iff]
      intro f hf
      simp [hshp f hf]
    simp [h1]
  · rintro ⟨f, hf, hfshp⟩ hent
    unfold recortar_ndvi_con_tlaxcala filtrar_estado
    have h1 : zipNames.filter (fun f => strEndsWith f ".shp") ≠ [] := by
      intro hnil
      have := List.filter_eq_nil_iff.mp hnil f hf
      simp [hfshp] at this
    have h2 : entidades.filter
        (fun e => strUpper e == strUpper "TLAXCALA") = [] := by
      rw [List.filter_eq_nil_iff]
      intro e he
      have hne := hent e he
      have hup : strUpper "TLAXCALA" = "TLAXCALA" := by decide
      simp [hup, hne]
    rw [h2]
    have h1' : (zipNames.filter (fun f => strEndsWith f ".shp")).isEmpty
        = false := by
      cases hc : zipNames.filter (fun f => strEndsWith f ".shp") with
      | nil => exact absurd hc h1
      | cons a t => rfl
    simp [h1']

theorem recortar_tlaxcala_errors_witness :
    recortar_ndvi_con_tlaxcala ["estados.dbf"] ["Puebla"] "out.tif" =
      ([], some .fileNotFound) ∧
    recortar_ndvi_con_tlaxcala ["estados.shp"] ["Puebla", "Hidalgo"]
      "out.tif" = ([], some .valueError) := by
  constructor
  · exact (recortar_tlaxcala_errors ["estados.dbf"] ["Puebla"] "out.tif").1
      (by decide)
  · exact (recortar_tlaxcala_errors ["estados.shp"] ["Puebla", "Hidalgo"]
      "out.tif").2 ⟨"estados.shp", by decide, by decide⟩ (by decide)

/-! ## Claim C7 -/

theorem foldl_append_if {α β : Type} (c : α → Bool) (g : α → β) :
    ∀ (l : List α) (acc : List β),
      l.foldl (fun acc p => if c p then acc ++ [g p] else acc) acc =
        acc ++ (l.filter c).map g := by
  intro l
  induction l with
  | nil => intro acc; simp
  | cons p t ih =>
    intro acc
    by_cases hc : c p
    · simp [List.foldl, hc, ih]
    · simp [List.foldl, hc, ih]

/-- Counterexample to claim C7 as stated: a mapping with a tile missing
its B04 band and a single complete tile gives neither a per-tile NDVI
raster for the incomplete tile nor any mosaic raster. -/
theorem procesar_ndvi_missing_outputs :
    procesar_ndvi_por_tiles
        [("T14QMG", ⟨none, [("B08", "a.jp2"), ("B04", "b.jp2")], "p1", "d1", []⟩),
         ("T14QNG", ⟨none, [("B08", "c.jp2")], "p2", "d2", []⟩)]
        "NDVI_output" =
      ["NDVI_output/T14QMG_NDVI.tif"] ∧
    "NDVI_output/T14QNG_NDVI.tif" ∉
      procesar_ndvi_por_tiles
        [("T14QMG", ⟨none, [("B08", "a.jp2"), ("B04", "b.jp2")], "p1", "d1", []⟩),
         ("T14QNG", ⟨none, [("B08", "c.jp2")], "p2", "d2", []⟩)]
        "NDVI_output" ∧
    "NDVI_output/NDVI_MOSAICO.tif" ∉
      procesar_ndvi_por_tiles
        [("T14QMG", ⟨none, [("B08", "a.jp2"), ("B04", "b.jp2")], "p1", "d1", []⟩),
         ("T14QNG", ⟨none, [("B08", "c.jp2")], "p2", "d2", []⟩)]
        "NDVI_output" := by
  refine ⟨by decide, by decide, by decide⟩

/-- Claim C7 amended: `procesar_ndvi_por_tiles` writes one NDVI raster
`<tile_id>_NDVI.tif` for each tile of the mapping whose band dict holds
both `B08` and `B04`, and appends the mosaic raster `NDVI_MOSAICO.tif`
exactly when more than one per-tile NDVI raster was produced. -/
theorem procesar_ndvi_outputs (m : List (String × TileInfo))
    (folder : String) :
    procesar_ndvi_por_tiles m folder =
      (let tileFiles :=
        (m.filter (fun p => hasBand p.2 "B08" && hasBand p.2 "B04")).map
          (fun p => folder ++ "/" ++ p.1 ++ "_NDVI.tif")
       if 1 < tileFiles.length then
         tileFiles ++ [folder ++ "/NDVI_MOSAICO.tif"]
       else tileFiles) := by
  unfold procesar_ndvi_por_tiles
  rw [foldl_append_if (fun p => hasBand p.2 "B08" && hasBand p.2 "B04")
    (fun p => folder ++ "/" ++ p.1 ++ "_NDVI.tif") m []]
  simp

/-! ## Claim C6 -/

theorem charToNat_inj {a b : Char} (h : a.toNat = b.toNat) : a = b :=
  Char.ext (UInt32.ext h)

theorem strData_inj {a b : String} (h : a.data = b.data) : a = b := by
  cases a
  cases b
  exact congrArg String.mk h

theorem charsLtB_trichot : ∀ x y : List Char,
    charsLtB x y = true ∨ charsLtB y x = true ∨ x = y := by
  intro x
  induction x with
  | nil =>
    intro y
    cases y with
    | nil => exact Or.inr (Or.inr rfl)
    | cons b bs => exact Or.inl rfl
  | cons a as ih =>
    intro y
    cases y with
    | nil => exact Or.inr (Or.inl rfl)
    | cons b bs =>
      rcases Nat.lt_trichotomy a.toNat b.toNat with h | h | h
      · left
        simp [charsLtB, h]
      · rcases ih bs with h2 | h2 | h2
        · left
          simp [charsLtB, h, h2]
        · right; left
          simp [charsLtB, h.symm, h2]
        · right; right
          rw [charToNat_inj h, h2]
      · right; left
        simp [charsLtB, h]

theorem charsLtB_trans : ∀ x y z : List Char,
    charsLtB x y = true → charsLtB y z = true → charsLtB x z = true := by
  intro x
  induction x with
  | nil =>
    intro y z h1 h2
    cases z with
    | nil =>
      cases y with
      | nil => simp [charsLtB] at h1
      | cons b bs => simp [charsLtB] at h2
    | cons c cs => rfl
  | cons a as ih =>
    intro y z h1 h2
    cases y with
    | nil => simp [charsLtB] at h1
    | cons b bs =>
      cases z with
      | nil => simp [charsLtB] at h2
      | cons c cs =>
        simp only [charsLtB, Bool.or_eq_true, Bool.and_eq_true,
          decide_eq_true_eq, beq_iff_eq] at h1 h2 ⊢
        rcases h1 with h1 | ⟨hab, h1t⟩
        · rcases h2 with h2 | ⟨hbc, h2t⟩
          · exact Or.inl (lt_trans h1 h2)
          · exact Or.inl (hbc ▸ h1)
        · rcases h2 with h2 | ⟨hbc, h2t⟩
          · exact Or.inl (hab ▸ h2)
          · exact Or.inr ⟨hab.trans hbc, ih bs cs h1t h2t⟩

theorem prodKeyLeB_total (a b : ProductInfo) :
    prodKeyLeB a b = true ∨ prodKeyLeB b a = true := by
  unfold prodKeyLeB
  rcases charsLtB_trichot a.date.data b.date.data with h | h | h
  · left; simp [h]
  · right; simp [h]
  · have hd : a.date = b.date := strData_inj h
    rcases le_total a.cloud_cover b.cloud_cover with hc | hc
    · left; simp [hd, hc]
    · right; simp [hd, hc]

theorem prodKeyLeB_trans {a b c : ProductInfo}
    (h1 : prodKeyLeB a b = true) (h2 : prodKeyLeB b c = true) :
    prodKeyLeB a c = true := by
  unfold prodKeyLeB at h1 h2 ⊢
  simp only [Bool.or_eq_true, Bool.and_eq_true, decide_eq_true_eq,
    beq_iff_eq] at h1 h2 ⊢
  rcases h1 with h1 | ⟨hd1, hc1⟩
  · rcases h2 with h2 | ⟨hd2, hc2⟩
    · exact Or.inl (charsLtB_trans _ _ _ h1 h2)
    · exact Or.inl (hd2 ▸ h1)
  · rcases h2 with h2 | ⟨hd2, hc2⟩
    · exact Or.inl (hd1 ▸ h2)
    · exact Or.inr ⟨hd1.trans hd2, hc1.trans hc2⟩

instance : IsTotal ProductInfo prodRevOrder :=
  ⟨fun a b => (prodKeyLeB_total b a).elim Or.inl Or.inr⟩

instance : IsTrans ProductInfo prodRevOrder :=
  ⟨fun _ _ _ h1 h2 => prodKeyLeB_trans h2 h1⟩

/-- Counterexample to claim C6 as stated: two products share the date
`2024-05-01` with cloud covers `5` and `10`; the code's
`reverse=True` sort puts the *higher* cloud cover first, so the output
is not ranked by `specRankOrder` (lower cloud cover first). -/
theorem sortProducts_not_spec_ranked :
    sortProducts
        [⟨"idA", "A", "2024-05-01", 5⟩, ⟨"idB", "B", "2024-05-01", 10⟩] =
      [⟨"idB", "B", "2024-05-01", 10⟩, ⟨"idA", "A", "2024-05-01", 5⟩] ∧
    ¬ List.Pairwise specRankOrder
        (sortProducts
          [⟨"idA", "A", "2024-05-01", 5⟩, ⟨"idB", "B", "2024-05-01", 10⟩]) := by
  have heval : sortProducts
      [⟨"idA", "A", "2024-05-01", 5⟩, ⟨"idB", "B", "2024-05-01", 10⟩] =
      [⟨"idB", "B", "2024-05-01", 10⟩, ⟨"idA", "A", "2024-05-01", 5⟩] := by
    decide
  refine ⟨heval, ?_⟩
  rw [heval]
  intro hpw
  have hrel := (List.pairwise_cons.mp hpw).1 _ (List.mem_singleton.mpr rfl)
  rcases hrel with h | ⟨_, hc⟩
  · simp [charsLtB] at h
  · norm_num at hc

/-- Claim C6 amended: the list returned by `search_sentinel2_products`
is sorted with the most recent acquisition date first and, among equal
dates, *higher* cloud cover ahead of lower (the `reverse=True` sort
descends in the whole `(date, cloud_cover)` key); the output is a
permutation of the input. -/
theorem sortProducts_ranking (ps : List ProductInfo) :
    List.Pairwise (fun a b : ProductInfo =>
        charsLtB b.date.data a.date.data = true ∨
          (a.date = b.date ∧ b.cloud_cover ≤ a.cloud_cover))
      (sortProducts ps) ∧
    (sortProducts ps).Perm ps := by
  constructor
  · have hs := List.sorted_insertionSort prodRevOrder ps
    refine hs.imp ?_
    intro a b hab
    have : prodKeyLeB b a = true := hab
    unfold prodKeyLeB at this
    simp only [Bool.or_eq_true, Bool.and_eq_true, decide_eq_true_eq,
      beq_iff_eq] at this
    rcases this with h | ⟨hd, hc⟩
    · exact Or.inl h
    · exact Or.inr ⟨hd.symm, hc⟩
  · exact List.perm_insertionSort prodRevOrder ps

/-! ## Claim C1 -/

theorem dictInsert_mem {β : Type} {d : List (String × β)} {k : String}
    {v : β} {x : String × β} (hx : x ∈ dictInsert d k v) :
    x = (k, v) ∨ x ∈ d := by
  unfold dictInsert at hx
  by_cases h : d.any (fun p => p.1 == k)
  · rw [if_pos h] at hx
    rcases List.mem_map.mp hx with ⟨p, hp, hpx⟩
    by_cases hk : p.1 == k
    · left
      rw [← hpx]
      simp [hk]
    · right
      rw [← hpx]
      simpa [hk] using hp
  · rw [if_neg h] at hx
    rcases List.mem_append.mp hx with h1 | h1
    · exact Or.inr h1
    · exact Or.inl (List.mem_singleton.mp h1)

theorem startsWithL_append (n : List Char) :
    ∀ x y, startsWithL n x = true → startsWithL n (x ++ y) = true := by
  induction n with
  | nil => intro x y _; rfl
  | cons a as ih =>
    intro x y h
    cases x with
    | nil => simp [startsWithL] at h
    | cons b bs =>
      simp only [startsWithL, Bool.and_eq_true] at h ⊢
      exact ⟨h.1, ih bs y h.2⟩

theorem strEndsWith_append_left (pre entry needle : String)
    (h : strEndsWith entry needle = true) :
    strEndsWith (pre ++ entry) needle = true := by
  unfold strEndsWith endsWithL at h ⊢
  rw [String.data_append, List.reverse_append]
  exact startsWithL_append needle.data.reverse entry.data.reverse
    pre.data.reverse h

theorem entryBand_some {entry band : String}
    (h : entryBand entry = some band) :
    band ∈ target_bands ∧ strEndsWith entry ".jp2" = true ∧
      strContains entry ("_" ++ band ++ "_") = true := by
  unfold entryBand at h
  by_cases hjp : strEndsWith entry ".jp2" = true
  · rw [if_pos hjp] at h
    exact ⟨List.mem_of_find?_eq_some h, hjp,
      by simpa using List.find?_some h⟩
  · rw [if_neg hjp] at h
    cases h

theorem entryBand_none {entry : String}
    (hjp : strEndsWith entry ".jp2" = true →
      ∀ band ∈ target_bands, strContains entry ("_" ++ band ++ "_") = false) :
    entryBand entry = none := by
  unfold entryBand
  by_cases hj : strEndsWith entry ".jp2" = true
  · rw [if_pos hj, List.find?_eq_none]
    intro band hband
    simp [hjp hj band hband]
  · rw [if_neg hj]

theorem collectBands_fold_mem (dir : String) :
    ∀ (entries : List String) (acc : List (String × String) × List String)
      (band path : String),
      (band, path) ∈ (entries.foldl (collectBandsStep dir) acc).1 →
      (band, path) ∈ acc.1 ∨
        ∃ entry ∈ entries, entryBand entry = some band ∧
          path = dir ++ "/" ++ entry := by
  intro entries
  induction entries with
  | nil => intro acc band path h; exact Or.inl h
  | cons e t ih =>
    intro acc band path h
    rw [List.foldl_cons] at h
    rcases ih (collectBandsStep dir acc e) band path h with h1 | h1
    · unfold collectBandsStep at h1
      cases he : entryBand e with
      | some b =>
        rw [he] at h1
        rcases dictInsert_mem h1 with h2 | h2
        · obtain ⟨hb, hp⟩ := Prod.mk.injEq .. |>.mp h2
          right
          refine ⟨e, List.mem_cons_self e t, ?_, hp⟩
          rw [hb]
          exact he
        · exact Or.inl h2
      | none =>
        rw [he] at h1
        exact Or.inl h1
    · rcases h1 with ⟨entry, hmem, hband, hpath⟩
      exact Or.inr ⟨entry, List.mem_cons_of_mem e hmem, hband, hpath⟩

theorem processZip_some {dd : String} {z : ZipArchive} {tileId : String}
    {info : TileInfo} (h : processZip dd z = some (tileId, info)) :
    extract_tile_id z.stem = some tileId ∧
      info.extract_dir = dd ++ "/" ++ shortName z.stem ∧
      info.bands = (collectBands (dd ++ "/" ++ shortName z.stem) z.entries).1 := by
  unfold processZip at h
  by_cases hne : (collectBands (dd ++ "/" ++ shortName z.stem) z.entries).1 ≠ []
  · rw [if_pos hne] at h
    cases ht : extract_tile_id z.stem with
    | some t =>
      rw [ht] at h
      simp only [Option.some.injEq, Prod.mk.injEq] at h
      refine ⟨?_, ?_, ?_⟩
      · exact congrArg some h.1
      · rw [← h.2]
      · rw [← h.2]
    | none =>
      rw [ht] at h
      cases h
  · rw [if_neg hne] at h
    cases h

theorem organize_fold_mem (dd : String) :
    ∀ (zs : List ZipArchive) (acc : List (String × TileInfo))
      (tileId : String) (info : TileInfo),
      (tileId, info) ∈ zs.foldl (organizeStep dd) acc →
      (tileId, info) ∈ acc ∨
        ∃ z ∈ zs, processZip dd z = some (tileId, info) := by
  intro zs
  induction zs with
  | nil => intro acc tileId info h; exact Or.inl h
  | cons z t ih =>
    intro acc tileId info h
    rw [List.foldl_cons] at h
    rcases ih (organizeStep dd acc z) tileId info h with h1 | h1
    · unfold organizeStep at h1
      cases hz : processZip dd z with
      | some p =>
        rw [hz] at h1
        rcases dictInsert_mem h1 with h2 | h2
        · right
          exact ⟨z, List.mem_cons_self z t, hz.trans (congrArg some h2.symm)⟩
        · exact Or.inl h2
      | none =>
        rw [hz] at h1
        exact Or.inl h1
    · rcases h1 with ⟨z', hmem, hz'⟩
      exact Or.inr ⟨z', List.mem_cons_of_mem z hmem, hz'⟩

theorem extract_tile_id_some {stem tileId : String}
    (h : extract_tile_id stem = some tileId) :
    strStartsWith tileId "T" = true ∧ tileId.length = 6 := by
  have hp := List.find?_some h
  simpa using hp

theorem collectBands_nil_of_none {dir : String} {entries : List String}
    (h : ∀ e ∈ entries, entryBand e = none) :
    collectBands dir entries = ([], []) := by
  unfold collectBands
  induction entries with
  | nil => rfl
  | cons e t ih =>
    rw [List.foldl_cons]
    have he : entryBand e = none := h e (List.mem_cons_self e t)
    have : collectBandsStep dir ([], []) e = ([], []) := by
      unfold collectBandsStep
      rw [he]
    rw [this]
    exact ih (fun e' he' => h e' (List.mem_cons_of_mem e he'))

/-- Claim C1: `extract_and_organize_bands` returns a mapping keyed by
tile identifier (the first `_`-separated token of the archive base name
that starts with `'T'` and has length exactly 6); each entry maps a
target band code from `{TCI, B08, B04, B03}` to the path of an
extracted file ending in `.jp2` whose archive path contains
`_<band>_`; an archive contributes nothing when none of its `.jp2`
entries matches a target band or when no tile identifier can be parsed
from its name. -/
theorem extract_and_organize_bands_spec (dd : String)
    (zs : List ZipArchive) :
    (∀ tileId info,
      (tileId, info) ∈ extract_and_organize_bands dd zs →
      (∃ z ∈ zs, extract_tile_id z.stem = some tileId) ∧
      strStartsWith tileId "T" = true ∧ tileId.length = 6 ∧
      ∀ band path, (band, path) ∈ info.bands →
        band ∈ target_bands ∧ strEndsWith path ".jp2" = true ∧
        ∃ z ∈ zs, ∃ entry ∈ z.entries,
          strEndsWith entry ".jp2" = true ∧
          strContains entry ("_" ++ band ++ "_") = true ∧
          path = dd ++ "/" ++ shortName z.stem ++ "/" ++ entry) ∧
    (∀ z ∈ zs,
      ((∀ entry ∈ z.entries, strEndsWith entry ".jp2" = true →
          ∀ band ∈ target_bands,
            strContains entry ("_" ++ band ++ "_") = false) ∨
        extract_tile_id z.stem = none) →
      processZip dd z = none) := by
  constructor
  · intro tileId info hmem
    unfold extract_and_organize_bands at hmem
    rcases organize_fold_mem dd zs [] tileId info hmem with h | h
    · cases h
    rcases h with ⟨z, hz, hpz⟩
    obtain ⟨htile, hdir, hbands⟩ := processZip_some hpz
    obtain ⟨hT, h6⟩ := extract_tile_id_some htile
    refine ⟨⟨z, hz, htile⟩, hT, h6, ?_⟩
    intro band path hbp
    rw [hbands] at hbp
    unfold collectBands at hbp
    rcases collectBands_fold_mem (dd ++ "/" ++ shortName z.stem) z.entries
      ([], []) band path hbp with h1 | h1
    · cases h1
    rcases h1 with ⟨entry, hentry, hband, hpath⟩
    obtain ⟨hb, hjp, hcont⟩ := entryBand_some hband
    refine ⟨hb, ?_, z, hz, entry, hentry, hjp, hcont, ?_⟩
    · rw [hpath]
      have : dd ++ "/" ++ shortName z.stem ++ "/" ++ entry =
          (dd ++ "/" ++ shortName z.stem ++ "/") ++ entry := by
        rw [String.append_assoc]
      rw [this]
      exact strEndsWith_append_left _ entry ".jp2" hjp
    · rw [hpath, String.append_assoc]
  · intro z _ hcase
    rcases hcase with hnone | htile
    · have hcb : collectBands (dd ++ "/" ++ shortName z.stem) z.entries
          = ([], []) :=
        collectBands_nil_of_none
          (fun e he => entryBand_none (fun hjp band hband =>
            hnone e he hjp band hband))
      simp [processZip, hcb]
    · simp [processZip, htile]

theorem extract_and_organize_bands_spec_witness :
    strStartsWith "T14QMG" "T" = true ∧ ("T14QMG" : String).length = 6 ∧
    strEndsWith "d/T14QMG_20240512/a_B04_.jp2" ".jp2" = true ∧
    processZip "d" ⟨"A_20240512_T14QMG_x", ["readme.txt"]⟩ = none := by
  have h := (extract_and_organize_bands_spec "d"
      [⟨"A_20240512_T14QMG_x", ["a_B04_.jp2"]⟩]).1 "T14QMG"
      ⟨some "20240512", [("B04", "d/T14QMG_20240512/a_B04_.jp2")],
        "A_20240512_T14QMG_x", "d/T14QMG_20240512",
        ["d/T14QMG_20240512/a_B04_.jp2"]⟩
      (by decide)
  have h2 := (extract_and_organize_bands_spec "d"
      [⟨"A_20240512_T14QMG_x", ["readme.txt"]⟩]).2
      ⟨"A_20240512_T14QMG_x", ["readme.txt"]⟩ (by decide)
      (Or.inl (by decide))
  exact ⟨h.2.1, h.2.2.1,
    (h.2.2.2 "B04" "d/T14QMG_20240512/a_B04_.jp2" (by decide)).2.1, h2⟩

/-! ## Claim C5 -/

/-- Counterexample to claim C5 as stated: for the triangular area of
interest `(0,0)-(4,0)-(0,4)`, the constructed filter accepts a product
whose footprint `(3,3)` lies in the *bounding box* of the triangle but
not in the triangle itself, so the filter does not restrict results to
products spatially intersecting the given area of interest. -/
theorem search_filter_bbox_counterexample :
    matchesFilter
        (search_filter "2024-05-01" "2024-05-31"
          (some [(0, 0), (4, 0), (0, 4), (0, 0)]) 20)
        ⟨"SENTINEL-2", "2024-05-10T12:00:00.000Z", "S2MSI2A", 10, (3, 3)⟩ =
      true ∧
    pointInPoly [(0, 0), (4, 0), (0, 4), (0, 0)] (3, 3) = false := by
  constructor
  · have hring : (search_filter "2024-05-01" "2024-05-31"
        (some [(0, 0), (4, 0), (0, 4), (0, 0)]) 20).areaRing =
        [((0 : ℚ), (0 : ℚ)), (4, 0), (4, 4), (0, 4), (0, 0)] := by
      norm_num [search_filter, bboxRing, polyBounds, min_def, max_def]
    have hpt : pointInPoly
        [((0 : ℚ), (0 : ℚ)), (4, 0), (4, 4), (0, 4), (0, 0)] (3, 3) =
        true := by
      norm_num [pointInPoly, ringEdges, edgeCrossesRay]
    unfold matchesFilter
    rw [hring, hpt]
    decide
  · norm_num [pointInPoly, ringEdges, edgeCrossesRay]

/-- Claim C5 amended: the catalog filter restricts results to the
SENTINEL-2 collection, to acquisition starts between
`<start>T00:00:00.000Z` and `<end>T23:59:59.999Z` inclusive, to
product type `S2MSI2A`, to cloud cover at most the maximum, and to
products spatially intersecting the *axis-aligned bounding box* of the
given area of interest; when no area is given the default Tlaxcala
polygon is used, and for that (rectangular) default the bounding box
coincides with the polygon itself. -/
theorem search_filter_semantics (sd ed : String) (aoi : Option (List Pt))
    (mc : ℚ) (p : CatalogProduct) :
    (matchesFilter (search_filter sd ed aoi mc) p = true ↔
      (p.collection = "SENTINEL-2" ∧
       strLeB (sd ++ "T00:00:00.000Z") p.contentStart = true ∧
       strLeB p.contentStart (ed ++ "T23:59:59.999Z") = true ∧
       p.productType = "S2MSI2A" ∧
       p.cloudCover ≤ mc ∧
       pointInPoly (bboxRing (aoi.getD tlaxcala_bounds)) p.footprint =
         true)) ∧
    bboxRing tlaxcala_bounds = tlaxcala_bounds := by
  constructor
  · unfold matchesFilter search_filter
    simp only [Bool.and_eq_true, beq_iff_eq, decide_eq_true_eq]
    tauto
  · norm_num [bboxRing, polyBounds, tlaxcala_bounds, min_def, max_def]

/-! ## Claim C10 -/

theorem daysInMonth_bounds (y m : Nat) :
    28 ≤ daysInMonth y m ∧ daysInMonth y m ≤ 31 := by
  unfold daysInMonth
  split_ifs <;> omega

theorem date_eq_iff {a b : Date} :
    a = b ↔ (a.year = b.year ∧ a.month = b.month ∧ a.day = b.day) := by
  cases a
  cases b
  simp [Date.mk.injEq]

theorem Date.blt_iff {a b : Date} :
    a.blt b = true ↔
      (a.year < b.year ∨ (a.year = b.year ∧
        (a.month < b.month ∨ (a.month = b.month ∧ a.day < b.day)))) := by
  unfold Date.blt
  simp [Bool.or_eq_true, Bool.and_eq_true, decide_eq_true_eq, beq_iff_eq]

theorem Date.ble_iff {a b : Date} :
    a.ble b = true ↔
      (a.year < b.year ∨ (a.year = b.year ∧
        (a.month < b.month ∨ (a.month = b.month ∧ a.day ≤ b.day)))) := by
  unfold Date.ble
  simp only [Bool.or_eq_true, Date.blt_iff, beq_iff_eq, date_eq_iff]
  omega

theorem Date.blt_false_iff {a b : Date} :
    a.blt b = false ↔ b.ble a = true := by
  rw [← Bool.not_eq_true, Date.ble_iff, Date.blt_iff]
  omega

theorem blt_nextDay (d : Date) : d.blt (nextDay d) = true := by
  unfold nextDay
  split_ifs <;> rw [Date.blt_iff] <;> dsimp only <;> omega

theorem nextDay_valid {d : Date} (h : d.valid) : (nextDay d).valid := by
  obtain ⟨h1, h2, h3, h4⟩ := h
  have hb1 := daysInMonth_bounds d.year d.month
  have hb2 := daysInMonth_bounds d.year (d.month + 1)
  have hb3 := daysInMonth_bounds (d.year + 1) 1
  unfold nextDay
  split_ifs with hd hm
  · refine ⟨h1, h2, ?_, ?_⟩
    · show 1 ≤ d.day + 1
      omega
    · show d.day + 1 ≤ daysInMonth d.year d.month
      omega
  · refine ⟨?_, ?_, ?_, ?_⟩
    · show 1 ≤ d.month + 1
      omega
    · show d.month + 1 ≤ 12
      omega
    · show 1 ≤ (1 : Nat)
      omega
    · show (1 : Nat) ≤ daysInMonth d.year (d.month + 1)
      omega
  · refine ⟨?_, ?_, ?_, ?_⟩
    · show 1 ≤ (1 : Nat)
      omega
    · show (1 : Nat) ≤ 12
      omega
    · show 1 ≤ (1 : Nat)
      omega
    · show (1 : Nat) ≤ daysInMonth (d.year + 1) 1
      omega

theorem endOfMonth_valid {d : Date} (h : d.valid) : (endOfMonth d).valid := by
  obtain ⟨h1, h2, _, _⟩ := h
  have hb := daysInMonth_bounds d.year d.month
  refine ⟨h1, h2, ?_, le_refl _⟩
  show 1 ≤ daysInMonth d.year d.month
  omega

theorem valid_blt_ord {a b : Date} (ha : a.valid) (hb : b.valid)
    (h : a.blt b = true) : dateOrd a < dateOrd b := by
  obtain ⟨ha1, ha2, ha3, ha4⟩ := ha
  obtain ⟨hb1, hb2, hb3, hb4⟩ := hb
  have hba := daysInMonth_bounds a.year a.month
  have hbb := daysInMonth_bounds b.year b.month
  rw [Date.blt_iff] at h
  unfold dateOrd
  simp only [Nat.min_def]
  split_ifs <;> omega

theorem loopStep_decreases {s e : Date} (hs : s.valid) (he : e.valid)
    (hse : s.blt e = true) :
    dateOrd s <
      dateOrd (nextDay (if e.blt (endOfMonth s) then e else endOfMonth s)) := by
  obtain ⟨hs1, hs2, hs3, hs4⟩ := hs
  obtain ⟨he1, he2, he3, he4⟩ := he
  have hbs := daysInMonth_bounds s.year s.month
  have hbe := daysInMonth_bounds e.year e.month
  rw [Date.blt_iff] at hse
  by_cases hb : e.blt (endOfMonth s) = true
  · rw [if_pos hb]
    rw [Date.blt_iff] at hb
    unfold endOfMonth at hb
    dsimp only at hb
    -- e lies strictly inside s's month, so s.year = e.year, s.month = e.month
    have hy : e.year = s.year := by omega
    have hm : e.month = s.month := by omega
    unfold nextDay dateOrd
    split_ifs <;> dsimp only <;> simp only [Nat.min_def] <;>
      split_ifs <;> rw [hy, hm] at * <;> omega
  · rw [if_neg hb]
    unfold nextDay endOfMonth dateOrd
    dsimp only
    split_ifs <;> dsimp only <;> simp only [Nat.min_def] <;>
      split_ifs <;> omega

theorem nextDay_le_of_lt {p d : Date} (hp : p.valid) (hd : d.valid)
    (h : p.blt d = true) : (nextDay p).ble d = true := by
  obtain ⟨hp1, hp2, hp3, hp4⟩ := hp
  obtain ⟨hd1, hd2, hd3, hd4⟩ := hd
  have hbp := daysInMonth_bounds p.year p.month
  have hbd := daysInMonth_bounds d.year d.month
  rw [Date.blt_iff] at h
  unfold nextDay
  split_ifs with h1 h2
  · rw [Date.ble_iff]
    dsimp only
    -- if d is in the same month as p, its day exceeds p.day
    omega
  · rw [Date.ble_iff]
    dsimp only
    by_cases hsame : d.year = p.year ∧ d.month = p.month
    · rw [hsame.1, hsame.2] at hd4
      omega
    · omega
  · rw [Date.ble_iff]
    dsimp only
    by_cases hsame : d.year = p.year ∧ d.month = p.month
    · rw [hsame.1, hsame.2] at hd4
      omega
    · omega

theorem periodsAux_nil {s e : Date} (h : s.blt e = false) :
    ∀ n, periodsAux n s e = [] := by
  intro n
  cases n with
  | zero => rfl
  | succ m =>
    simp [periodsAux, h]

theorem periodsFuel_pos {s e : Date} (hs : s.valid) (he : e.valid)
    (h : s.blt e = true) : 1 ≤ periodsFuel s e := by
  have := valid_blt_ord hs he h
  unfold periodsFuel
  omega

theorem periodsFuel_decreases {s e : Date} (hs : s.valid) (he : e.valid)
    (h : s.blt e = true) :
    periodsFuel (nextDay (if e.blt (endOfMonth s) then e else endOfMonth s)) e
      < periodsFuel s e ∨
    periodsFuel (nextDay (if e.blt (endOfMonth s) then e else endOfMonth s)) e
      = 0 := by
  have hdec := loopStep_decreases hs he h
  have hord := valid_blt_ord hs he h
  unfold periodsFuel
  omega

theorem pend_valid {s e : Date} (hs : s.valid) (he : e.valid) :
    (if e.blt (endOfMonth s) then e else endOfMonth s).valid := by
  by_cases hb : e.blt (endOfMonth s) = true
  · rw [if_pos hb]; exact he
  · rw [if_neg hb]; exact endOfMonth_valid hs

theorem periodsAux_fuel_stable (e : Date) (he : e.valid) :
    ∀ (f : Nat) (s : Date), s.valid → ∀ g, periodsFuel s e ≤ g → g ≤ f →
      periodsAux g s e = periodsAux (periodsFuel s e) s e := by
  intro f
  induction f with
  | zero =>
    intro s _ g hg1 hg2
    have hg : g = 0 := Nat.le_zero.mp hg2
    have hf : periodsFuel s e = 0 := by omega
    rw [hg, hf]
  | succ f ih =>
    intro s hs g hg1 hg2
    by_cases hblt : s.blt e = true
    · have hfp := periodsFuel_pos hs he hblt
      obtain ⟨g', rfl⟩ : ∃ g', g = g' + 1 :=
        ⟨g - 1, by omega⟩
      obtain ⟨k, hk⟩ : ∃ k, periodsFuel s e = k + 1 :=
        ⟨periodsFuel s e - 1, by omega⟩
      have hpv : (if e.blt (endOfMonth s) then e else endOfMonth s).valid :=
        pend_valid hs he
      have hsv' :
          (nextDay (if e.blt (endOfMonth s) then e else endOfMonth s)).valid :=
        nextDay_valid hpv
      have hfuel' :
          periodsFuel
            (nextDay (if e.blt (endOfMonth s) then e else endOfMonth s)) e
            ≤ k := by
        have hdec := loopStep_decreases hs he hblt
        have hord := valid_blt_ord hs he hblt
        unfold periodsFuel at hk ⊢
        omega
      have e1 : periodsAux (g' + 1) s e =
          (s, if e.blt (endOfMonth s) then e else endOfMonth s) ::
            periodsAux g'
              (nextDay (if e.blt (endOfMonth s) then e else endOfMonth s))
              e := by
        simp only [periodsAux, hblt, if_true]
      have e2 : periodsAux (k + 1) s e =
          (s, if e.blt (endOfMonth s) then e else endOfMonth s) ::
            periodsAux k
              (nextDay (if e.blt (endOfMonth s) then e else endOfMonth s))
              e := by
        simp only [periodsAux, hblt, if_true]
      rw [hk, e1, e2]
      rw [ih _ hsv' g' (by omega) (by omega), ih _ hsv' k hfuel' (by omega)]
    · have hb : s.blt e = false := by
        cases hsb : s.blt e
        · rfl
        · exact absurd hsb hblt
      rw [periodsAux_nil hb, periodsAux_nil hb]

theorem Date.ble_of_blt {a b : Date} (h : a.blt b = true) :
    a.ble b = true := by
  rw [Date.ble_iff]
  rw [Date.blt_iff] at h
  omega

theorem Date.ble_false_iff {a b : Date} :
    a.ble b = false ↔ b.blt a = true := by
  rw [← Bool.not_eq_true, Date.ble_iff, Date.blt_iff]
  omega

theorem Date.ble_trans {a b c : Date} (h1 : a.ble b = true)
    (h2 : b.ble c = true) : a.ble c = true := by
  rw [Date.ble_iff] at h1 h2 ⊢
  omega

theorem Date.ble_antisymm {a b : Date} (h1 : a.ble b = true)
    (h2 : b.ble a = true) : a = b := by
  rw [Date.ble_iff] at h1 h2
  rw [date_eq_iff]
  omega

theorem nextDay_endOfMonth_day (s : Date) :
    (nextDay (endOfMonth s)).day = 1 := by
  unfold nextDay endOfMonth
  dsimp only
  rw [if_neg (lt_irrefl _)]
  split_ifs <;> rfl

theorem periodsAux_step {s e : Date} (hblt : s.blt e = true) (g : Nat) :
    periodsAux (g + 1) s e =
      (s, if e.blt (endOfMonth s) then e else endOfMonth s) ::
        periodsAux g
          (nextDay (if e.blt (endOfMonth s) then e else endOfMonth s)) e := by
  simp only [periodsAux, hblt, if_true]

theorem periodsAux_head {g : Nat} {s e : Date} {p : Date × Date}
    (h : (periodsAux g s e).head? = some p) : p.1 = s := by
  cases g with
  | zero => cases h
  | succ g =>
    by_cases hblt : s.blt e = true
    · rw [periodsAux_step hblt] at h
      cases h
      rfl
    · rw [periodsAux_nil (Bool.not_eq_true _ |>.mp hblt)] at h
      cases h

theorem periodsAux_ends (e : Date) (he : e.valid) :
    ∀ (g : Nat) (s : Date), s.valid →
      ∀ p ∈ periodsAux g s e,
        p.2 = (if e.blt (endOfMonth p.1) then e else endOfMonth p.1) ∧
          p.1.ble p.2 = true := by
  intro g
  induction g with
  | zero => intro s _ p hp; cases hp
  | succ g ih =>
    intro s hs p hp
    by_cases hblt : s.blt e = true
    · rw [periodsAux_step hblt] at hp
      rcases List.mem_cons.mp hp with h | h
      · subst h
        dsimp only
        refine ⟨rfl, ?_⟩
        by_cases hb : e.blt (endOfMonth s) = true
        · rw [if_pos hb]
          exact Date.ble_of_blt hblt
        · rw [if_neg hb]
          obtain ⟨_, _, _, hs4⟩ := hs
          rw [Date.ble_iff]
          unfold endOfMonth
          dsimp only
          omega
      · exact ih (nextDay (if e.blt (endOfMonth s) then e else endOfMonth s))
          (nextDay_valid (pend_valid hs he)) p h
    · rw [periodsAux_nil (Bool.not_eq_true _ |>.mp hblt)] at hp
      cases hp

theorem periodsAux_chain (e : Date) (he : e.valid) :
    ∀ (g : Nat) (s : Date), s.valid →
      List.Chain' (fun p q => q.1 = nextDay p.2) (periodsAux g s e) := by
  intro g
  induction g with
  | zero => intro s _; exact List.chain'_nil
  | succ g ih =>
    intro s hs
    by_cases hblt : s.blt e = true
    · rw [periodsAux_step hblt]
      rw [List.chain'_cons']
      constructor
      · intro q hq
        rw [periodsAux_head hq]
      · exact ih (nextDay (if e.blt (endOfMonth s) then e else endOfMonth s))
          (nextDay_valid (pend_valid hs he))
    · rw [periodsAux_nil (Bool.not_eq_true _ |>.mp hblt)]
      exact List.chain'_nil

theorem periodsAux_covers (e : Date) (he : e.valid) :
    ∀ (g : Nat) (s : Date), s.valid → periodsFuel s e ≤ g →
      s.blt e = true →
      ∀ d : Date, d.valid → s.ble d = true → d.ble e = true →
        (d = e → e.day ≠ 1) →
        ∃ p ∈ periodsAux g s e, p.1.ble d = true ∧ d.ble p.2 = true := by
  intro g
  induction g with
  | zero =>
    intro s hs hfuel hblt
    have := periodsFuel_pos hs he hblt
    omega
  | succ g ih =>
    intro s hs hfuel hblt d hd hsd hde hside
    rw [periodsAux_step hblt]
    by_cases hdp :
        d.ble (if e.blt (endOfMonth s) then e else endOfMonth s) = true
    · exact ⟨(s, if e.blt (endOfMonth s) then e else endOfMonth s),
        List.mem_cons_self _ _, hsd, hdp⟩
    · have hpd : (if e.blt (endOfMonth s) then e else endOfMonth s).blt d
          = true := by
        rw [← Date.ble_false_iff]
        exact Bool.not_eq_true _ |>.mp hdp
      have hs' : (nextDay (if e.blt (endOfMonth s) then e
          else endOfMonth s)).ble d = true :=
        nextDay_le_of_lt (pend_valid hs he) hd hpd
      by_cases hblt' :
          (nextDay (if e.blt (endOfMonth s) then e else endOfMonth s)).blt e
            = true
      · have hfuel' : periodsFuel
            (nextDay (if e.blt (endOfMonth s) then e else endOfMonth s)) e
              ≤ g := by
          have hdec := loopStep_decreases hs he hblt
          have hord := valid_blt_ord hs he hblt
          unfold periodsFuel at hfuel ⊢
          omega
        obtain ⟨p, hp, hprop⟩ := ih
          (nextDay (if e.blt (endOfMonth s) then e else endOfMonth s))
          (nextDay_valid (pend_valid hs he)) hfuel' hblt' d hd hs' hde hside
        exact ⟨p, List.mem_cons_of_mem _ hp, hprop⟩
      · have h1 : e.ble
            (nextDay (if e.blt (endOfMonth s) then e else endOfMonth s))
              = true := by
          rw [← Date.ble_false_iff] at hblt'
          cases hx : e.ble
            (nextDay (if e.blt (endOfMonth s) then e else endOfMonth s))
          · exact absurd hx hblt'
          · rfl
        have hed : e.ble d = true := Date.ble_trans h1 hs'
        have hd_eq_e : d = e := Date.ble_antisymm hde hed
        have he_eq :
            nextDay (if e.blt (endOfMonth s) then e else endOfMonth s) = e := by
          apply Date.ble_antisymm
          · rw [hd_eq_e] at hs'
            exact hs'
          · exact h1
        exfalso
        by_cases hb : e.blt (endOfMonth s) = true
        · rw [if_pos hb] at he_eq
          have hlt := blt_nextDay e
          rw [he_eq] at hlt
          rw [Date.blt_iff] at hlt
          omega
        · rw [if_neg hb] at he_eq
          apply hside hd_eq_e
          rw [← he_eq]
          exact nextDay_endOfMonth_day s

/-- Counterexample to claim C10 as stated: for start `2024-05-01` and
end `2024-06-01` (a valid pair with start < end), the loop produces the
single period `(2024-05-01, 2024-05-31)` and stops, because the next
start equals `end_date` and the loop guard is strict; the day
`2024-06-01` lies in `[start_date, end_date]` but in no period, so the
periods do not cover the whole range. -/
theorem download_periods_coverage_gap :
    Date.blt ⟨2024, 5, 1⟩ ⟨2024, 6, 1⟩ = true ∧
    Date.valid ⟨2024, 5, 1⟩ ∧ Date.valid ⟨2024, 6, 1⟩ ∧
    download_periods ⟨2024, 5, 1⟩ ⟨2024, 6, 1⟩ =
      [(⟨2024, 5, 1⟩, ⟨2024, 5, 31⟩)] ∧
    ¬ ∃ p ∈ download_periods ⟨2024, 5, 1⟩ ⟨2024, 6, 1⟩,
        p.1.ble ⟨2024, 6, 1⟩ = true ∧ Date.ble ⟨2024, 6, 1⟩ p.2 = true := by
  decide

/-- Claim C10 amended: for valid dates with `start < end`, the GUI
period loop terminates (any fuel at least `periodsFuel` computes the
same period list); the first period starts at `start_date`; every
period `(a, b)` has `a ≤ b` with `b` the last day of `a`'s month or
`end_date`, whichever is earlier; consecutive periods are adjacent
(next start = previous end + 1 day) and hence non-overlapping; and the
periods cover every valid day `d` with `start ≤ d ≤ end` — except
`d = end_date` itself when `end_date` is the first day of a month, in
which case the final one-day period is skipped. -/
theorem download_periods_partition (s e : Date) (hs : s.valid)
    (he : e.valid) (hlt : s.blt e = true) :
    (∀ f, periodsFuel s e ≤ f → periodsAux f s e = download_periods s e) ∧
    (download_periods s e).head?.map Prod.fst = some s ∧
    (∀ p ∈ download_periods s e,
      p.1.ble p.2 = true ∧
      p.2 = (if e.blt (endOfMonth p.1) then e else endOfMonth p.1)) ∧
    List.Chain' (fun p q => q.1 = nextDay p.2) (download_periods s e) ∧
    List.Chain' (fun p q => p.2.blt q.1 = true) (download_periods s e) ∧
    (∀ d : Date, d.valid → s.ble d = true → d.ble e = true →
      (d = e → e.day ≠ 1) →
      ∃ p ∈ download_periods s e, p.1.ble d = true ∧ d.ble p.2 = true) := by
  refine ⟨?_, ?_, ?_, ?_, ?_, ?_⟩
  · intro f hf
    exact periodsAux_fuel_stable e he f s hs f hf (le_refl f)
  · obtain ⟨k, hk⟩ : ∃ k, periodsFuel s e = k + 1 :=
      ⟨periodsFuel s e - 1, by have := periodsFuel_pos hs he hlt; omega⟩
    unfold download_periods
    rw [hk, periodsAux_step hlt]
    rfl
  · intro p hp
    have h := periodsAux_ends e he (periodsFuel s e) s hs p hp
    exact ⟨h.2, h.1⟩
  · exact periodsAux_chain e he (periodsFuel s e) s hs
  · refine List.Chain'.imp ?_ (periodsAux_chain e he (periodsFuel s e) s hs)
    intro p q h
    rw [h]
    exact blt_nextDay p.2
  · intro d hd h1 h2 h3
    exact periodsAux_covers e he (periodsFuel s e) s hs (le_refl _) hlt
      d hd h1 h2 h3

theorem download_periods_partition_witness :
    download_periods ⟨2024, 5, 10⟩ ⟨2024, 7, 15⟩ =
      [(⟨2024, 5, 10⟩, ⟨2024, 5, 31⟩), (⟨2024, 6, 1⟩, ⟨2024, 6, 30⟩),
       (⟨2024, 7, 1⟩, ⟨2024, 7, 15⟩)] ∧
    List.Chain' (fun p q => q.1 = nextDay p.2)
      (download_periods ⟨2024, 5, 10⟩ ⟨2024, 7, 15⟩) :=
  ⟨by decide,
    (download_periods_partition ⟨2024, 5, 10⟩ ⟨2024, 7, 15⟩ (by decide)
      (by decide) (by decide)).2.2.2.1⟩

/-! ## Claim C4 -/

theorem gaussPhi_pos (k : Int) : 0 < gaussPhi k := Real.exp_pos _

theorem gaussNorm_pos : 0 < gaussNorm := by
  unfold gaussNorm kernelOffsets
  simp only [List.map_cons, List.map_nil, List.sum_cons, List.sum_nil,
    add_zero]
  exact add_pos (gaussPhi_pos _) (add_pos (gaussPhi_pos _)
    (add_pos (gaussPhi_pos _) (add_pos (gaussPhi_pos _)
    (add_pos (gaussPhi_pos _) (add_pos (gaussPhi_pos _)
    (add_pos (gaussPhi_pos _) (add_pos (gaussPhi_pos _)
    (gaussPhi_pos _))))))))

/-- On an axis of length 1 every reflected index is 0, so the Gaussian
pass is the identity (the kernel is normalised). -/
theorem gaussCorr1_one (xs : Nat → ℝ) (j : Nat) : gaussCorr1 1 xs j = xs 0 := by
  unfold gaussCorr1 reflectIndex
  simp only [kernelOffsets, List.map_cons, List.map_nil, List.sum_cons,
    List.sum_nil]
  norm_num
  have hS := gaussNorm_pos
  field_simp
  unfold gaussNorm kernelOffsets
  simp only [List.map_cons, List.map_nil, List.sum_cons, List.sum_nil]
  ring

/-- Explicit expansion of the Gaussian pass on an axis of length 2 at
output index 1 (reflect boundary mode). -/
theorem gaussCorr1_two_at_one (ys : Nat → ℝ) :
    gaussCorr1 2 ys 1 =
      (gaussPhi (-4) * ys 1 + (gaussPhi (-3) * ys 1 + (gaussPhi (-2) * ys 0 +
        (gaussPhi (-1) * ys 0 + (gaussPhi 0 * ys 1 + (gaussPhi 1 * ys 1 +
        (gaussPhi 2 * ys 0 + (gaussPhi 3 * ys 0 + (gaussPhi 4 * ys 1 +
          0))))))))) / gaussNorm := by
  unfold gaussCorr1
  simp only [kernelOffsets, List.map_cons, List.map_nil, List.sum_cons,
    List.sum_nil]
  norm_num [reflectIndex]
  rw [show 3 - Int.toNat 2 = 1 from by decide]

/-- Counterexample to claim C4 as stated: for the 1×2 bands
`NIR = [[2, 0]]`, resampled `RED = [[0, 0]]`, the pixel `(0,1)` has
per-pixel NDVI `(0-0)/(0+0) = 0`, yet `calcular_ndvi` returns a
strictly positive value there — the Gaussian smoothing mixes in the
neighbouring pixel's NDVI, so the returned pixel does not equal the
per-pixel quotient. -/
theorem calcular_ndvi_not_pointwise :
    (nirTest 0 1 - redTest 0 1) / (nirTest 0 1 + redTest 0 1) = 0 ∧
    calcular_ndvi 1 2 nirTest redTest 0 1 ≠
      (nirTest 0 1 - redTest 0 1) / (nirTest 0 1 + redTest 0 1) := by
  have hval : (nirTest 0 1 - redTest 0 1) / (nirTest 0 1 + redTest 0 1)
      = 0 := by
    simp [nirTest, redTest]
  refine ⟨hval, ?_⟩
  rw [hval]
  have hinner0 : gaussCorr1 1
      (fun r => ndviPixelR (nirTest r 0) (redTest r 0)) 0 = 1 := by
    rw [gaussCorr1_one]
    norm_num [nirTest, redTest, ndviPixelR]
  have hinner1 : gaussCorr1 1
      (fun r => ndviPixelR (nirTest r 1) (redTest r 1)) 0 = 0 := by
    rw [gaussCorr1_one]
    norm_num [nirTest, redTest, ndviPixelR]
  unfold calcular_ndvi gaussian_filter
  rw [gaussCorr1_two_at_one]
  simp only [hinner0, hinner1, mul_zero, mul_one, zero_add, add_zero]
  apply ne_of_gt
  apply div_pos
  · exact add_pos (gaussPhi_pos _) (add_pos (gaussPhi_pos _)
      (add_pos (gaussPhi_pos _) (gaussPhi_pos _)))
  · exact gaussNorm_pos

/-- Claim C4 amended: every pixel of the array returned by
`calcular_ndvi` equals the Gaussian smoothing (sigma 1, separable,
reflect mode) of the array whose pixels are the per-pixel NDVI
`(NIR-RED)/(NIR+RED)` — computed from the pixel's NIR value and its
resampled RED value, and defined as 0 where `NIR+RED = 0`. -/
theorem calcular_ndvi_smoothed (h w : Nat) (nir red : Nat → Nat → ℝ)
    (i j : Nat) :
    calcular_ndvi h w nir red i j =
      gaussian_filter h w
        (fun a b => if nir a b + red a b = 0 then 0
          else (nir a b - red a b) / (nir a b + red a b)) i j ∧
    (nir i j + red i j ≠ 0 →
      ndviPixelR (nir i j) (red i j) =
        (nir i j - red i j) / (nir i j + red i j)) := by
  refine ⟨rfl, fun hne => ?_⟩
  unfold ndviPixelR
  rw [if_neg hne]

theorem calcular_ndvi_smoothed_witness :
    ndviPixelR (nirTest 0 0) (redTest 0 0) =
      (nirTest 0 0 - redTest 0 0) / (nirTest 0 0 + redTest 0 0) :=
  (calcular_ndvi_smoothed 1 2 nirTest redTest 0 0).2
    (by norm_num [nirTest, redTest])
